import Mathlib

/-!
Verification development for the STM32 I2C v2 driver
(`embassy-stm32/src/i2c/v2.rs`).

The driver is shallowly embedded: every register-programming action the
driver performs is recorded as an event in a trace, and the busy-wait
loops (`wait_txe`, `wait_rxne`, `wait_tc`, and the `while ... start()` /
`while !... tcr()` polls) are driven by an explicit environment that
supplies, for each wait in order, either success (the awaited flag
arrived) or the error the wait detected.  Rust panics (failed `assert!`)
are a distinguished outcome.  Machine-integer casts are modelled with
explicit `% 256` where the source casts to `u8`.
-/

set_option maxRecDepth 10000

/-- The driver's error type (`Error` in the source crate). -/
inductive Err where
  | bus
  | arbitration
  | nack
  | timeout
  | zeroLengthTransfer
deriving DecidableEq, Repr

/-- Outcome of a driver operation: `Ok`, `Err e`, or a Rust panic
(failed `assert!`). -/
inductive MRes (α : Type) where
  | ok (a : α)
  | err (e : Err)
  | panicked
deriving DecidableEq, Repr

/-- Observable hardware events: register-programming steps
(`master_write`/`master_read` set START; `master_continue` reprograms
NBYTES/RELOAD), bytes moved through the data register, the STOP request
(`master_stop`), and submission of a DMA transfer. -/
inductive Ev where
  | start (address : Nat) (isWrite : Bool) (nbytes : Nat) (reload : Bool) (autoend : Bool)
  | cont (nbytes : Nat) (reload : Bool)
  | byte (b : Nat)
  | stop
  | dmaStart
deriving DecidableEq, Repr

/-- Environment: outcomes for the successive flag waits.  `none` means
the awaited flag arrived; `some e` means the wait detected error `e`.
An exhausted environment means every further wait succeeds. -/
def Env : Type := List (Option Err)

/-- Consume the next wait outcome. -/
def takeWait : Env → Env × Option Err
  | [] => ([], none)
  | o :: rest => (rest, o)

/-- A flag-polling wait (`wait_txe` / `wait_rxne` / `wait_tc`): the loop
either sees the awaited flag, or detects BERR/ARLO/NACKF/timeout and
returns the mapped error. -/
def tryWait (env : Env) : Env × Option Err := takeWait env

/-- A busy wait whose body is only `timeout.check()?` (the
`while cr2.start` and `while !isr.tcr` loops): its only error is
`Error::Timeout`. -/
def busyWait (env : Env) : Env × Option Err :=
  match takeWait env with
  | (env, some _) => (env, some .timeout)
  | (env, none) => (env, none)

/-- `master_write` (v2.rs line 102): asserts `length < 256`, waits for a
previous START to clear (timeout only), then programs
SADD/DIR=WRITE/NBYTES/START/AUTOEND/RELOAD in CR2. -/
def master_write (address : Nat) (length : Nat) (autoend : Bool) (reload : Bool)
    (env : Env) : Env × List Ev × MRes Unit :=
  if 256 ≤ length then (env, [], .panicked)
  else
    match busyWait env with
    | (env, some e) => (env, [], .err e)
    | (env, none) => (env, [.start address true length reload autoend], .ok ())

/-- `master_read` (v2.rs line 60): asserts `length < 256`; unless
`restart`, waits for a previous START to clear; then programs
SADD/DIR=READ/NBYTES/START/AUTOEND/RELOAD in CR2. -/
def master_read (address : Nat) (length : Nat) (autoend : Bool) (reload : Bool)
    (restart : Bool) (env : Env) : Env × List Ev × MRes Unit :=
  if 256 ≤ length then (env, [], .panicked)
  else if restart then (env, [.start address false length reload autoend], .ok ())
  else
    match busyWait env with
    | (env, some e) => (env, [], .err e)
    | (env, none) => (env, [.start address false length reload autoend], .ok ())

/-- `master_continue` (v2.rs line 134): asserts `0 < length < 256`,
waits for TCR (timeout only), then reprograms NBYTES/RELOAD. -/
def master_continue (length : Nat) (reload : Bool) (env : Env) :
    Env × List Ev × MRes Unit :=
  if 256 ≤ length ∨ length = 0 then (env, [], .panicked)
  else
    match busyWait env with
    | (env, some e) => (env, [], .err e)
    | (env, none) => (env, [.cont length reload], .ok ())

/-- `total_chunks` as computed in `read_internal` / `write_internal` /
`blocking_write_vectored`: `len/255`, plus one if 255 does not divide
`len`. -/
def totalChunks (len : Nat) : Nat :=
  let completed := len / 255
  if completed * 255 = len then completed else completed + 1

/-- Rust's `slice.chunks(255)`: splits a list into consecutive chunks of
at most 255 elements; the empty slice yields no chunks.  (Stated in
closed form over the chunk index so that it is structurally
computable; `chunksOf_cons_eq` below recovers the usual peel-one-chunk
unfolding.) -/
def chunksOf (l : List α) : List (List α) :=
  (List.range (totalChunks l.length)).map (fun i => (l.drop (255 * i)).take 255)

/-- The per-byte transmit loop of `write_internal` /
`blocking_write_vectored`: for each byte, `wait_txe` (on error: issue a
STOP when `stopOnErr`, then return the error), then write TXDR. -/
def writeBytes (chunk : List Nat) (stopOnErr : Bool) (env : Env) :
    Env × List Ev × MRes Unit :=
  match chunk with
  | [] => (env, [], .ok ())
  | b :: rest =>
    match tryWait env with
    | (env, some e) => (env, if stopOnErr then [.stop] else [], .err e)
    | (env, none) =>
      match writeBytes rest stopOnErr env with
      | (env, evs, r) => (env, .byte (b % 256) :: evs, r)

/-- The chunk loop of `write_internal` (v2.rs line 285): for chunk
`number ≥ 1`, `master_continue(chunk.len(), number != last_chunk_idx)?`
-- note the `?`: a continue error propagates WITHOUT a STOP -- then the
byte loop (which stops on error iff `send_stop`). -/
def writeChunks (chunks : List (List Nat)) (number lastChunkIdx : Nat)
    (sendStop : Bool) (env : Env) : Env × List Ev × MRes Unit :=
  match chunks with
  | [] => (env, [], .ok ())
  | c :: rest =>
    let step : Env × List Ev × MRes Unit :=
      if number = 0 then (env, [], .ok ())
      else master_continue c.length (number != lastChunkIdx) env
    match step with
    | (env, evs, .ok _) =>
      match writeBytes c sendStop env with
      | (env, evs2, .ok _) =>
        match writeChunks rest (number + 1) lastChunkIdx sendStop env with
        | (env, evs3, r) => (env, evs ++ evs2 ++ evs3, r)
      | (env, evs2, r) => (env, evs ++ evs2, r)
    | (env, evs, r) => (env, evs, r)

/-- `write_internal` (v2.rs line 260): compute the chunk count, issue
`master_write` with `Stop::Software` (STOP on error iff `send_stop`),
run the chunk loop, `wait_tc`, and finally issue a STOP iff
`send_stop`. -/
def write_internal (address : Nat) (w : List Nat) (sendStop : Bool) (env : Env) :
    Env × List Ev × MRes Unit :=
  let lastChunkIdx := totalChunks w.length - 1
  match master_write address (min w.length 255) false (lastChunkIdx != 0) env with
  | (env, evs, .ok _) =>
    match writeChunks (chunksOf w) 0 lastChunkIdx sendStop env with
    | (env, evs2, .ok _) =>
      match tryWait env with
      | (env, some e) =>
        (env, evs ++ evs2 ++ (if sendStop then [.stop] else []), .err e)
      | (env, none) =>
        (env, evs ++ evs2 ++ (if sendStop then [.stop] else []), .ok ())
    | (env, evs2, r) => (env, evs ++ evs2, r)
  | (env, evs, .err e) =>
    (env, evs ++ (if sendStop then [.stop] else []), .err e)
  | (env, evs, .panicked) => (env, evs, .panicked)

/-- Chunk lengths of an `n`-byte buffer, as produced by
`buffer.chunks_mut(255)`: `min (n - 255*i) 255` for each chunk index
`i`. -/
def chunkSizes (n : Nat) : List Nat :=
  (List.range (totalChunks n)).map (fun i => min (n - 255 * i) 255)

/-- Output of the read loops: final environment, unconsumed wire bytes,
bytes written into the caller's buffer, trace, and result. -/
structure RdOut where
  env : Env
  rx : List Nat
  buf : List Nat
  evs : List Ev
  res : MRes Unit

/-- The per-byte receive loop of `read_internal`: for each of `k` bytes,
`wait_rxne(timeout)?` then read RXDR (the next wire byte). -/
def readBytes (k : Nat) (rx : List Nat) (env : Env) : RdOut :=
  match k with
  | 0 => ⟨env, rx, [], [], .ok ()⟩
  | k + 1 =>
    match tryWait env with
    | (env, some e) => ⟨env, rx, [], [], .err e⟩
    | (env, none) =>
      let b := rx.headI
      let out := readBytes k rx.tail env
      ⟨out.env, out.rx, b :: out.buf, .byte b :: out.evs, out.res⟩

/-- The chunk loop of `read_internal` (v2.rs line 245): for chunk
`number ≥ 1`, `master_continue(chunk.len(), number != last_chunk_idx)?`,
then the byte loop. -/
def readChunks (sizes : List Nat) (number lastChunkIdx : Nat) (rx : List Nat)
    (env : Env) : RdOut :=
  match sizes with
  | [] => ⟨env, rx, [], [], .ok ()⟩
  | k :: rest =>
    let step : Env × List Ev × MRes Unit :=
      if number = 0 then (env, [], .ok ())
      else master_continue k (number != lastChunkIdx) env
    match step with
    | (env, evs, .ok _) =>
      let out := readBytes k rx env
      match out.res with
      | .ok _ =>
        let out2 := readChunks rest (number + 1) lastChunkIdx out.rx out.env
        ⟨out2.env, out2.rx, out.buf ++ out2.buf, evs ++ out.evs ++ out2.evs, out2.res⟩
      | r => ⟨out.env, out.rx, out.buf, evs ++ out.evs, r⟩
    | (env, evs, r) => ⟨env, rx, [], evs, r⟩

/-- `read_internal` (v2.rs line 227): compute the chunk count, issue
`master_read` with `Stop::Automatic` (autoend), then run the chunk
loop.  No explicit STOP is ever issued (hardware auto-stop). -/
def read_internal (address : Nat) (n : Nat) (restart : Bool) (rx : List Nat)
    (env : Env) : RdOut :=
  let lastChunkIdx := totalChunks n - 1
  match master_read address (min n 255) true (lastChunkIdx != 0) restart env with
  | (env, evs, .ok _) =>
    let out := readChunks (chunkSizes n) 0 lastChunkIdx rx env
    ⟨out.env, out.rx, out.buf, evs ++ out.evs, out.res⟩
  | (env, evs, r) => ⟨env, rx, [], evs, r⟩

/-- The inner chunk loop of `blocking_write_vectored` (v2.rs line 390):
like `write_internal`'s chunk loop, but the reload flag is
`(number != last_chunk_idx) || (idx != last_slice_index)` and every
error path (including `master_continue`) issues a STOP. -/
def vecChunks (chunks : List (List Nat)) (number lastChunkIdx idx lastSliceIdx : Nat)
    (env : Env) : Env × List Ev × MRes Unit :=
  match chunks with
  | [] => (env, [], .ok ())
  | c :: rest =>
    let step : Env × List Ev × MRes Unit :=
      if number = 0 then (env, [], .ok ())
      else master_continue c.length ((number != lastChunkIdx) || (idx != lastSliceIdx)) env
    match step with
    | (env, evs, .ok _) =>
      match writeBytes c true env with
      | (env, evs2, .ok _) =>
        match vecChunks rest (number + 1) lastChunkIdx idx lastSliceIdx env with
        | (env, evs3, r) => (env, evs ++ evs2 ++ evs3, r)
      | (env, evs2, r) => (env, evs ++ evs2, r)
    | (env, evs, .err e) => (env, evs ++ [.stop], .err e)
    | (env, evs, .panicked) => (env, evs, .panicked)

/-- The slice loop of `blocking_write_vectored` (v2.rs line 369): for
slice `idx ≥ 1` first a boundary
`master_continue(min(len,255), (idx != last_slice_index) || (len > 255))`
(STOP then return on error), then the inner chunk loop. -/
def vecSlices (slices : List (List Nat)) (idx lastSliceIdx : Nat) (env : Env) :
    Env × List Ev × MRes Unit :=
  match slices with
  | [] => (env, [], .ok ())
  | s :: rest =>
    let step : Env × List Ev × MRes Unit :=
      if idx = 0 then (env, [], .ok ())
      else master_continue (min s.length 255)
        ((idx != lastSliceIdx) || (decide (255 < s.length))) env
    match step with
    | (env, evs, .ok _) =>
      match vecChunks (chunksOf s) 0 (totalChunks s.length - 1) idx lastSliceIdx env with
      | (env, evs2, .ok _) =>
        match vecSlices rest (idx + 1) lastSliceIdx env with
        | (env, evs3, r) => (env, evs ++ evs2 ++ evs3, r)
      | (env, evs2, r) => (env, evs ++ evs2, r)
    | (env, evs, .err e) => (env, evs ++ [.stop], .err e)
    | (env, evs, .panicked) => (env, evs, .panicked)

/-- `blocking_write_vectored` (v2.rs line 348): reject an empty buffer
list with `ZeroLengthTransfer`; issue `master_write` for the first
slice with reload `(first_length > 255) || (last_slice_index != 0)`
(STOP then return on error); run the slice loop; `wait_tc`; STOP. -/
def blocking_write_vectored (address : Nat) (v : List (List Nat)) (env : Env) :
    Env × List Ev × MRes Unit :=
  if v = [] then (env, [], .err .zeroLengthTransfer)
  else
    let firstLength := (v.headI).length
    let lastSliceIdx := v.length - 1
    match master_write address (min firstLength 255) false
      ((decide (255 < firstLength)) || (lastSliceIdx != 0)) env with
    | (env, evs, .ok _) =>
      match vecSlices v 0 lastSliceIdx env with
      | (env, evs2, .ok _) =>
        match tryWait env with
        | (env, some e) => (env, evs ++ evs2 ++ [.stop], .err e)
        | (env, none) => (env, evs ++ evs2 ++ [.stop], .ok ())
      | (env, evs2, r) => (env, evs ++ evs2, r)
    | (env, evs, .err e) => (env, evs ++ [.stop], .err e)
    | (env, evs, .panicked) => (env, evs, .panicked)

/-- The register-programming steps (NBYTES, RELOAD) of a trace, in
order. -/
def progSteps : List Ev → List (Nat × Bool)
  | [] => []
  | .start _ _ n r _ :: rest => (n, r) :: progSteps rest
  | .cont n r :: rest => (n, r) :: progSteps rest
  | .byte _ :: rest => progSteps rest
  | .stop :: rest => progSteps rest
  | .dmaStart :: rest => progSteps rest

/-- The bytes moved through the data register, in order. -/
def bytesOf : List Ev → List Nat
  | [] => []
  | .byte b :: rest => b :: bytesOf rest
  | .start _ _ _ _ _ :: rest => bytesOf rest
  | .cont _ _ :: rest => bytesOf rest
  | .stop :: rest => bytesOf rest
  | .dmaStart :: rest => bytesOf rest

/-- Number of address phases (START programmings) in a trace. -/
def countStarts (evs : List Ev) : Nat :=
  evs.countP (fun e => match e with | .start _ _ _ _ _ => true | _ => false)

/-- Number of STOP requests in a trace. -/
def countStops (evs : List Ev) : Nat :=
  evs.countP (fun e => match e with | .stop => true | _ => false)

/-- `reloadPattern bs` holds when `bs` is nonempty, every flag but the
last is `true`, and the last is `false`: reload asserted on every
programming step except the last. -/
def reloadPattern : List Bool → Bool
  | [] => false
  | [b] => !b
  | b :: c :: rest => b && reloadPattern (c :: rest)

/-! ### Chunking lemmas -/

theorem totalChunks_eq (n : Nat) : totalChunks n = (n + 254) / 255 := by
  simp only [totalChunks]
  split <;> omega

theorem totalChunks_zero : totalChunks 0 = 0 := by
  rw [totalChunks_eq]

theorem totalChunks_succ {n : Nat} (h : n ≠ 0) :
    totalChunks n = totalChunks (n - 255) + 1 := by
  rw [totalChunks_eq, totalChunks_eq]
  omega

theorem chunksOf_nil : chunksOf ([] : List α) = [] := by
  rw [chunksOf]
  simp [totalChunks_zero]

/-- Peel-one-chunk unfolding of `chunksOf`, matching the step of Rust's
`chunks(255)` iterator. -/
theorem chunksOf_cons_eq (l : List α) (h : l ≠ []) :
    chunksOf l = l.take 255 :: chunksOf (l.drop 255) := by
  rw [chunksOf, chunksOf]
  rw [totalChunks_succ (by simpa using h), List.range_succ_eq_map]
  simp only [List.map_cons, List.map_map, Nat.mul_zero, List.drop_zero, List.length_drop]
  congr 1
  apply List.map_congr_left
  intro i _
  simp only [Function.comp_apply]
  rw [List.drop_drop]
  congr 2
  omega

/-- Peel-one-chunk unfolding of `chunkSizes`. -/
theorem chunkSizes_eq (n : Nat) (h : n ≠ 0) :
    chunkSizes n = min n 255 :: chunkSizes (n - 255) := by
  rw [chunkSizes, chunkSizes]
  rw [totalChunks_succ h, List.range_succ_eq_map]
  simp only [List.map_cons, List.map_map, Nat.mul_zero, Nat.sub_zero]
  congr 1
  apply List.map_congr_left
  intro i _
  simp only [Function.comp_apply]
  congr 1
  omega

theorem chunksOf_flatten (l : List α) : (chunksOf l).flatten = l := by
  suffices hfuel : ∀ (fuel : Nat) (l2 : List α), l2.length ≤ fuel →
      (chunksOf l2).flatten = l2 from hfuel l.length l le_rfl
  intro fuel
  induction fuel with
  | zero =>
    intro l2 hl
    have h0 : l2 = [] := List.length_eq_zero.1 (by omega)
    subst h0
    simp [chunksOf_nil]
  | succ fuel ih =>
    intro l2 hl
    cases l2 with
    | nil => simp [chunksOf_nil]
    | cons a l3 =>
      rw [chunksOf_cons_eq _ (by simp), List.flatten_cons]
      rw [ih ((a :: l3).drop 255) (by simp only [List.length_drop, List.length_cons] at hl ⊢; omega)]
      exact List.take_append_drop _ _

theorem chunksOf_mem {l c : List α} (h : c ∈ chunksOf l) :
    0 < c.length ∧ c.length ≤ 255 := by
  suffices hfuel : ∀ (fuel : Nat) (l2 : List α), l2.length ≤ fuel →
      ∀ c2 ∈ chunksOf l2, 0 < c2.length ∧ c2.length ≤ 255 from
    hfuel l.length l le_rfl c h
  intro fuel
  induction fuel with
  | zero =>
    intro l2 hl c2 hc
    have h0 : l2 = [] := List.length_eq_zero.1 (by omega)
    subst h0
    simp [chunksOf_nil] at hc
  | succ fuel ih =>
    intro l2 hl c2 hc
    cases l2 with
    | nil => simp [chunksOf_nil] at hc
    | cons a l3 =>
      rw [chunksOf_cons_eq _ (by simp)] at hc
      rcases List.mem_cons.1 hc with hc | hc
      · subst hc
        simp only [List.length_take, List.length_cons]
        omega
      · exact ih ((a :: l3).drop 255)
          (by simp only [List.length_drop, List.length_cons] at hl ⊢; omega) c2 hc

theorem chunkSizes_zero : chunkSizes 0 = [] := by
  rw [chunkSizes]
  simp [totalChunks_zero]

theorem chunkSizes_sum (n : Nat) : (chunkSizes n).sum = n := by
  induction n using Nat.strong_induction_on with
  | _ n ih =>
    by_cases h0 : n = 0
    · simp [h0, chunkSizes_zero]
    · rw [chunkSizes_eq n h0]
      simp only [List.sum_cons]
      rw [ih (n - 255) (by omega)]
      omega

theorem chunkSizes_length (n : Nat) : (chunkSizes n).length = (n + 254) / 255 := by
  induction n using Nat.strong_induction_on with
  | _ n ih =>
    by_cases h0 : n = 0
    · simp [h0, chunkSizes_zero]
    · rw [chunkSizes_eq n h0]
      simp only [List.length_cons]
      rw [ih (n - 255) (by omega)]
      omega

theorem chunkSizes_mem {n k : Nat} (h : k ∈ chunkSizes n) : 0 < k ∧ k ≤ 255 := by
  induction n using Nat.strong_induction_on with
  | _ n ih =>
    by_cases h0 : n = 0
    · rw [h0, chunkSizes_zero] at h
      simp at h
    · rw [chunkSizes_eq n h0] at h
      rcases List.mem_cons.1 h with h | h
      · subst h
        omega
      · exact ih (n - 255) (by omega) h

theorem chunksOf_map_length (l : List α) :
    (chunksOf l).map List.length = chunkSizes l.length := by
  suffices hfuel : ∀ (fuel : Nat) (l2 : List α), l2.length ≤ fuel →
      (chunksOf l2).map List.length = chunkSizes l2.length from hfuel l.length l le_rfl
  intro fuel
  induction fuel with
  | zero =>
    intro l2 hl
    have h0 : l2 = [] := List.length_eq_zero.1 (by omega)
    subst h0
    simp [chunksOf_nil, chunkSizes_zero]
  | succ fuel ih =>
    intro l2 hl
    cases l2 with
    | nil => simp [chunksOf_nil, chunkSizes_zero]
    | cons a l3 =>
      rw [chunksOf_cons_eq _ (by simp), chunkSizes_eq _ (by simp)]
      simp only [List.map_cons]
      rw [ih ((a :: l3).drop 255) (by simp only [List.length_drop, List.length_cons] at hl ⊢; omega)]
      simp only [List.length_take, List.length_cons, List.length_drop]
      have h1 : min 255 (l3.length + 1) = min (l3.length + 1) 255 := Nat.min_comm _ _
      rw [h1]

/-! ### Happy-path characterizations (environment `[]`: every wait
succeeds, no hardware error, no timeout) -/

theorem busyWait_nil : busyWait [] = ([], none) := rfl

theorem tryWait_nil : tryWait [] = ([], none) := rfl

theorem master_write_happy (addr n : Nat) (ae rl : Bool) (h : n ≤ 255) :
    master_write addr n ae rl [] = ([], [.start addr true n rl ae], .ok ()) := by
  rw [master_write, if_neg (by omega)]
  rfl

theorem master_continue_happy {n : Nat} (h1 : 0 < n) (h2 : n ≤ 255) (rl : Bool) :
    master_continue n rl [] = ([], [.cont n rl], .ok ()) := by
  rw [master_continue, if_neg (by omega)]
  rfl

theorem writeBytes_happy (c : List Nat) (so : Bool) :
    writeBytes c so [] = ([], c.map (fun b => .byte (b % 256)), .ok ()) := by
  induction c with
  | nil => rfl
  | cons b rest ih =>
    rw [writeBytes]
    simp only [tryWait_nil, ih]
    rfl

/-- Happy-path trace of the chunk loop of `write_internal`. -/
def chunkTrace : List (List Nat) → Nat → Nat → List Ev
  | [], _, _ => []
  | c :: rest, number, lastIdx =>
    (if number = 0 then [] else [.cont c.length (number != lastIdx)])
      ++ c.map (fun b => Ev.byte (b % 256)) ++ chunkTrace rest (number + 1) lastIdx

theorem writeChunks_happy (cs : List (List Nat)) (num lastIdx : Nat) (so : Bool)
    (h : ∀ c ∈ cs, 0 < c.length ∧ c.length ≤ 255) :
    writeChunks cs num lastIdx so [] = ([], chunkTrace cs num lastIdx, .ok ()) := by
  induction cs generalizing num with
  | nil => rfl
  | cons c rest ih =>
    have hc := h c (List.mem_cons_self _ _)
    have hrest := fun x hx => h x (List.mem_cons_of_mem _ hx)
    rw [writeChunks, chunkTrace]
    by_cases hnum : num = 0
    · subst hnum
      simp only [if_pos rfl, reduceIte]
      rw [writeBytes_happy]
      simp only []
      rw [ih 1 hrest]
    · rw [if_neg hnum, if_neg hnum, master_continue_happy hc.1 hc.2]
      simp only []
      rw [writeBytes_happy]
      simp only []
      rw [ih (num + 1) hrest]

theorem write_internal_happy (addr : Nat) (w : List Nat) (so : Bool) :
    write_internal addr w so [] =
      ([], .start addr true (min w.length 255) ((totalChunks w.length - 1) != 0) false
            :: (chunkTrace (chunksOf w) 0 (totalChunks w.length - 1)
                ++ (if so then [.stop] else [])), .ok ()) := by
  rw [write_internal, master_write_happy _ _ _ _ (by omega)]
  simp only []
  rw [writeChunks_happy _ _ _ _ (fun c hc => chunksOf_mem hc)]
  simp only [tryWait_nil]
  simp [List.append_assoc]

/-! ### Trace observables -/

theorem progSteps_append (xs ys : List Ev) :
    progSteps (xs ++ ys) = progSteps xs ++ progSteps ys := by
  induction xs with
  | nil => rfl
  | cons e rest ih => cases e <;> simp [progSteps, ih]

theorem bytesOf_append (xs ys : List Ev) :
    bytesOf (xs ++ ys) = bytesOf xs ++ bytesOf ys := by
  induction xs with
  | nil => rfl
  | cons e rest ih => cases e <;> simp [bytesOf, ih]

theorem progSteps_map_byte (c : List Nat) (f : Nat → Nat) :
    progSteps (c.map (fun b => Ev.byte (f b))) = [] := by
  induction c with
  | nil => rfl
  | cons b rest ih => simp [progSteps, ih]

theorem bytesOf_map_byte (c : List Nat) (f : Nat → Nat) :
    bytesOf (c.map (fun b => Ev.byte (f b))) = c.map f := by
  induction c with
  | nil => rfl
  | cons b rest ih => simp [bytesOf, ih]

/-- The programming steps contributed by a chunk loop run starting at
chunk index `number`: one `(size, number != lastIdx)` step per chunk of
index ≥ 1. -/
def stepsAuxN : List Nat → Nat → Nat → List (Nat × Bool)
  | [], _, _ => []
  | k :: rest, number, lastIdx =>
    (if number = 0 then [] else [(k, number != lastIdx)])
      ++ stepsAuxN rest (number + 1) lastIdx

theorem progSteps_chunkTrace (cs : List (List Nat)) (num lastIdx : Nat) :
    progSteps (chunkTrace cs num lastIdx) = stepsAuxN (cs.map List.length) num lastIdx := by
  induction cs generalizing num with
  | nil => rfl
  | cons c rest ih =>
    rw [chunkTrace]
    simp only [List.map_cons]
    rw [stepsAuxN]
    rw [progSteps_append, progSteps_append, progSteps_map_byte, ih (num + 1)]
    by_cases hnum : num = 0
    · simp [hnum, progSteps]
    · simp [hnum, progSteps]

theorem bytesOf_chunkTrace (cs : List (List Nat)) (num lastIdx : Nat) :
    bytesOf (chunkTrace cs num lastIdx) = cs.flatten.map (fun b => b % 256) := by
  induction cs generalizing num with
  | nil => rfl
  | cons c rest ih =>
    rw [chunkTrace]
    rw [bytesOf_append, bytesOf_append, bytesOf_map_byte, ih (num + 1)]
    by_cases hnum : num = 0
    · simp [hnum, bytesOf]
    · simp [hnum, bytesOf]

theorem stepsAuxN_length (ks : List Nat) (num lastIdx : Nat) (h : num ≠ 0) :
    (stepsAuxN ks num lastIdx).length = ks.length := by
  induction ks generalizing num with
  | nil => rfl
  | cons k rest ih =>
    rw [stepsAuxN, if_neg h]
    simp [ih (num + 1) (by omega)]

theorem stepsAuxN_zero (k : Nat) (ks : List Nat) (lastIdx : Nat) :
    stepsAuxN (k :: ks) 0 lastIdx = stepsAuxN ks 1 lastIdx := by
  rw [stepsAuxN]
  simp

theorem stepsAuxN_mem_fst {ks : List Nat} {num lastIdx : Nat} {p : Nat × Bool}
    (h : p ∈ stepsAuxN ks num lastIdx) : p.1 ∈ ks := by
  induction ks generalizing num with
  | nil => simp [stepsAuxN] at h
  | cons k rest ih =>
    rw [stepsAuxN] at h
    rcases List.mem_append.1 h with h | h
    · by_cases hnum : num = 0
      · simp [hnum] at h
      · rw [if_neg hnum] at h
        simp at h
        simp [h]
    · exact List.mem_cons_of_mem _ (ih h)

/-- Reload flags of a chunk-loop tail: all `true` except the step of the
last chunk, which is `false`. -/
theorem stepsAuxN_snd (ks : List Nat) (num lastIdx : Nat) (hne : ks ≠ [])
    (h1 : 1 ≤ num) (h2 : num + ks.length = lastIdx + 1) :
    (stepsAuxN ks num lastIdx).map Prod.snd =
      List.replicate (ks.length - 1) true ++ [false] := by
  induction ks generalizing num with
  | nil => exact absurd rfl hne
  | cons k rest ih =>
    rw [stepsAuxN, if_neg (by omega)]
    cases rest with
    | nil =>
      simp only [List.length_cons, List.length_nil] at h2 ⊢
      have : num = lastIdx := by omega
      simp [stepsAuxN, this]
    | cons k2 rest2 =>
      have hlt : num ≠ lastIdx := by
        simp only [List.length_cons] at h2
        omega
      rw [List.map_append]
      rw [ih (num + 1) (by simp) (by omega) (by simp at h2 ⊢; omega)]
      simp only [List.length_cons]
      simp [hlt, List.replicate_succ]

theorem chunkSizes_ne_nil {n : Nat} (h : n ≠ 0) : chunkSizes n ≠ [] := by
  rw [chunkSizes_eq n h]
  simp

theorem write_internal_steps (addr : Nat) (w : List Nat) (so : Bool) :
    progSteps (write_internal addr w so []).2.1 =
      (min w.length 255, (totalChunks w.length - 1) != 0)
        :: stepsAuxN (chunkSizes w.length) 0 (totalChunks w.length - 1) := by
  rw [write_internal_happy]
  simp only [progSteps, progSteps_append, progSteps_chunkTrace, chunksOf_map_length]
  congr 1
  cases so <;> simp [progSteps]

/-- Reload flags of a full master transfer: `true` on every programming
step except the last, `false` on the last. -/
theorem master_steps_snd (n lastIdx : Nat) (h : lastIdx = totalChunks n - 1) :
    (((min n 255, lastIdx != 0) :: stepsAuxN (chunkSizes n) 0 lastIdx).map Prod.snd) =
      List.replicate ((chunkSizes n).length - 1) true ++ [false] := by
  by_cases h0 : n = 0
  · subst h0
    simp only [totalChunks] at h
    norm_num at h
    subst h
    simp [chunkSizes_zero, stepsAuxN]
  · have hK : (chunkSizes n).length = (n + 254) / 255 := chunkSizes_length n
    have htc : totalChunks n = (n + 254) / 255 := totalChunks_eq n
    rw [chunkSizes_eq n h0]
    rw [stepsAuxN_zero]
    by_cases h255 : n ≤ 255
    · have hz : n - 255 = 0 := by omega
      have hli : lastIdx = 0 := by
        rw [h, htc]
        omega
      rw [hz, chunkSizes_zero]
      simp [stepsAuxN, hli]
    · have hne : chunkSizes (n - 255) ≠ [] := chunkSizes_ne_nil (by omega)
      have hlen : (chunkSizes (n - 255)).length = (n + 254) / 255 - 1 := by
        rw [chunkSizes_length]
        omega
      have hK2 : 2 ≤ (n + 254) / 255 := by omega
      have hl0 : lastIdx ≠ 0 := by
        rw [h, htc]
        omega
      rw [List.map_cons, stepsAuxN_snd _ 1 lastIdx hne (by omega)
        (by rw [hlen, h, htc]; omega)]
      simp only [List.length_cons, hlen]
      have hstep : (n + 254) / 255 - 1 + 1 - 1 = ((n + 254) / 255 - 1 - 1) + 1 := by
        omega
      rw [hstep, List.replicate_succ]
      simp [hl0]

/-! ### Read-side happy path -/

theorem master_read_happy (addr n : Nat) (ae rl restart : Bool) (h : n ≤ 255) :
    master_read addr n ae rl restart [] = ([], [.start addr false n rl ae], .ok ()) := by
  rw [master_read, if_neg (by omega)]
  cases restart <;> rfl

theorem readBytes_happy (k : Nat) (rx : List Nat) (h : k ≤ rx.length) :
    readBytes k rx [] =
      ⟨[], rx.drop k, rx.take k, (rx.take k).map (fun b => Ev.byte b), .ok ()⟩ := by
  induction k generalizing rx with
  | zero => simp [readBytes]
  | succ k ih =>
    cases rx with
    | nil => simp at h
    | cons b rx2 =>
      rw [readBytes]
      simp only [tryWait_nil, List.tail_cons, List.headI_cons]
      rw [ih rx2 (by simpa using h)]
      simp

/-- Happy-path trace of the read chunk loop. -/
def rdTrace : List Nat → Nat → Nat → List Nat → List Ev
  | [], _, _, _ => []
  | k :: rest, num, lastIdx, rx =>
    (if num = 0 then [] else [.cont k (num != lastIdx)])
      ++ (rx.take k).map (fun b => Ev.byte b) ++ rdTrace rest (num + 1) lastIdx (rx.drop k)

theorem readChunks_happy (sizes : List Nat) (num lastIdx : Nat) (rx : List Nat)
    (hsz : ∀ k ∈ sizes, 0 < k ∧ k ≤ 255) (hlen : sizes.sum ≤ rx.length) :
    readChunks sizes num lastIdx rx [] =
      ⟨[], rx.drop sizes.sum, rx.take sizes.sum, rdTrace sizes num lastIdx rx, .ok ()⟩ := by
  induction sizes generalizing num rx with
  | nil => simp [readChunks, rdTrace]
  | cons k rest ih =>
    have hk := hsz k (List.mem_cons_self _ _)
    have hrest := fun x hx => hsz x (List.mem_cons_of_mem _ hx)
    have hsum : (k :: rest).sum = k + rest.sum := by simp
    have hkr : k ≤ rx.length := by
      rw [hsum] at hlen
      omega
    have hlen2 : rest.sum ≤ (rx.drop k).length := by
      simp only [List.length_drop]
      rw [hsum] at hlen
      omega
    rw [readChunks, rdTrace]
    by_cases hnum : num = 0
    · subst hnum
      simp only [if_pos rfl, reduceIte]
      rw [readBytes_happy k rx hkr]
      simp only []
      rw [ih 1 (rx.drop k) hrest hlen2]
      simp only [hsum, List.nil_append]
      rw [List.drop_drop, ← List.take_add]
    · rw [if_neg hnum, if_neg hnum, master_continue_happy hk.1 hk.2]
      simp only []
      rw [readBytes_happy k rx hkr]
      simp only []
      rw [ih (num + 1) (rx.drop k) hrest hlen2]
      simp only [hsum]
      rw [List.drop_drop, ← List.take_add]

theorem read_internal_happy (addr n : Nat) (restart : Bool) (rx : List Nat)
    (h : n ≤ rx.length) :
    read_internal addr n restart rx [] =
      ⟨[], rx.drop n, rx.take n,
        .start addr false (min n 255) ((totalChunks n - 1) != 0) true
          :: rdTrace (chunkSizes n) 0 (totalChunks n - 1) rx, .ok ()⟩ := by
  rw [read_internal, master_read_happy _ _ _ _ _ (by omega)]
  simp only []
  rw [readChunks_happy _ _ _ _ (fun k hk => chunkSizes_mem hk) (by rw [chunkSizes_sum]; omega)]
  simp [chunkSizes_sum]

theorem progSteps_rdTrace (sizes : List Nat) (num lastIdx : Nat) (rx : List Nat) :
    progSteps (rdTrace sizes num lastIdx rx) = stepsAuxN sizes num lastIdx := by
  induction sizes generalizing num rx with
  | nil => rfl
  | cons k rest ih =>
    rw [rdTrace, stepsAuxN]
    rw [progSteps_append, progSteps_append]
    have : progSteps ((rx.take k).map (fun b => Ev.byte b)) = [] := by
      induction rx.take k with
      | nil => rfl
      | cons b rest2 ih2 => simp [progSteps, ih2]
    rw [this, ih (num + 1)]
    by_cases hnum : num = 0
    · simp [hnum, progSteps]
    · simp [hnum, progSteps]

theorem bytesOf_rdTrace (sizes : List Nat) (num lastIdx : Nat) (rx : List Nat) :
    bytesOf (rdTrace sizes num lastIdx rx) = rx.take sizes.sum := by
  induction sizes generalizing num rx with
  | nil => simp [rdTrace, bytesOf]
  | cons k rest ih =>
    rw [rdTrace]
    rw [bytesOf_append, bytesOf_append]
    have hb : bytesOf ((rx.take k).map (fun b => Ev.byte b)) = rx.take k := by
      induction rx.take k with
      | nil => rfl
      | cons b rest2 ih2 => simp [bytesOf, ih2]
    rw [hb, ih (num + 1)]
    have hsum : (k :: rest).sum = k + rest.sum := by simp
    rw [hsum, List.take_add]
    by_cases hnum : num = 0
    · simp [hnum, bytesOf]
    · simp [hnum, bytesOf]

theorem master_steps_length (n lastIdx : Nat) :
    (((min n 255, lastIdx != 0) :: stepsAuxN (chunkSizes n) 0 lastIdx)).length =
      if n = 0 then 1 else (n + 254) / 255 := by
  by_cases h0 : n = 0
  · simp [h0, chunkSizes_zero, stepsAuxN]
  · rw [chunkSizes_eq n h0, stepsAuxN_zero, if_neg h0]
    simp only [List.length_cons, stepsAuxN_length _ 1 lastIdx (by omega), chunkSizes_length]
    omega

theorem master_steps_fst (n lastIdx : Nat) {p : Nat × Bool}
    (hp : p ∈ (min n 255, lastIdx != 0) :: stepsAuxN (chunkSizes n) 0 lastIdx) :
    p.1 ≤ 255 := by
  rcases List.mem_cons.1 hp with h | h
  · subst h
    simp
  · exact (chunkSizes_mem (stepsAuxN_mem_fst h)).2

theorem write_internal_bytes (addr : Nat) (w : List Nat) (so : Bool) :
    bytesOf (write_internal addr w so []).2.1 = w.map (fun b => b % 256) := by
  rw [write_internal_happy]
  simp only [bytesOf, bytesOf_append, bytesOf_chunkTrace, chunksOf_flatten]
  cases so <;> simp [bytesOf]

theorem map_mod_of_lt {w : List Nat} (hw : ∀ b ∈ w, b < 256) :
    w.map (fun b => b % 256) = w := by
  induction w with
  | nil => rfl
  | cons b rest ih =>
    have hb := hw b (List.mem_cons_self _ _)
    simp only [List.map_cons, Nat.mod_eq_of_lt hb]
    rw [ih (fun x hx => hw x (List.mem_cons_of_mem _ hx))]

/-- **C1.** For every buffer of `N ≥ 0` bytes, `read_internal` and
`write_internal` split the transfer into `ceil(N/255)` programming
steps (a single zero-length step when `N = 0`), every step programs at
most 255 bytes, reload is asserted on every step except the last and
cleared on the last, and the bytes moved through the data register,
concatenated in step order, equal the buffer (written bytes for the
write, the filled caller buffer for the read). -/
theorem c1_master_chunking (addr : Nat) (w : List Nat) (sendStop : Bool)
    (hw : ∀ b ∈ w, b < 256) (n : Nat) (restart : Bool) (rx : List Nat)
    (hrx : n ≤ rx.length) :
    ((write_internal addr w sendStop []).2.2 = .ok ()
      ∧ (progSteps (write_internal addr w sendStop []).2.1).length
          = (if w.length = 0 then 1 else (w.length + 254) / 255)
      ∧ (∀ p ∈ progSteps (write_internal addr w sendStop []).2.1, p.1 ≤ 255)
      ∧ (progSteps (write_internal addr w sendStop []).2.1).map Prod.snd
          = List.replicate
              ((progSteps (write_internal addr w sendStop []).2.1).length - 1) true
              ++ [false]
      ∧ bytesOf (write_internal addr w sendStop []).2.1 = w)
    ∧ ((read_internal addr n restart rx []).res = .ok ()
      ∧ (progSteps (read_internal addr n restart rx []).evs).length
          = (if n = 0 then 1 else (n + 254) / 255)
      ∧ (∀ p ∈ progSteps (read_internal addr n restart rx []).evs, p.1 ≤ 255)
      ∧ (progSteps (read_internal addr n restart rx []).evs).map Prod.snd
          = List.replicate
              ((progSteps (read_internal addr n restart rx []).evs).length - 1) true
              ++ [false]
      ∧ bytesOf (read_internal addr n restart rx []).evs
          = (read_internal addr n restart rx []).buf
      ∧ (read_internal addr n restart rx []).buf.length = n) := by
  constructor
  · refine ⟨?_, ?_, ?_, ?_, ?_⟩
    · rw [write_internal_happy]
    · rw [write_internal_steps, master_steps_length]
    · rw [write_internal_steps]
      exact fun p hp => master_steps_fst _ _ hp
    · rw [write_internal_steps, master_steps_snd _ _ rfl, master_steps_length]
      congr 2
      rw [chunkSizes_length]
      by_cases h0 : w.length = 0
      · simp [h0]
      · simp [h0]
    · rw [write_internal_bytes, map_mod_of_lt hw]
  · have hsteps : progSteps (read_internal addr n restart rx []).evs =
        (min n 255, (totalChunks n - 1) != 0)
          :: stepsAuxN (chunkSizes n) 0 (totalChunks n - 1) := by
      rw [read_internal_happy _ _ _ _ hrx]
      simp only [progSteps, progSteps_rdTrace]
    refine ⟨?_, ?_, ?_, ?_, ?_, ?_⟩
    · rw [read_internal_happy _ _ _ _ hrx]
    · rw [hsteps, master_steps_length]
    · rw [hsteps]
      exact fun p hp => master_steps_fst _ _ hp
    · rw [hsteps, master_steps_snd _ _ rfl, master_steps_length]
      congr 2
      rw [chunkSizes_length]
      by_cases h0 : n = 0
      · simp [h0]
      · simp [h0]
    · rw [read_internal_happy _ _ _ _ hrx]
      simp only [bytesOf, bytesOf_rdTrace, chunkSizes_sum]
    · rw [read_internal_happy _ _ _ _ hrx]
      simp only [List.length_take]
      omega

/-- Witness for C1 at a concrete input: a 3-byte write and a 2-byte
read. -/
theorem c1_master_chunking_witness :
    (∀ b ∈ [1, 2, 3], b < 256) ∧ (2 ≤ ([4, 5] : List Nat).length)
    ∧ (((write_internal 7 [1, 2, 3] true []).2.2 = .ok ()
      ∧ (progSteps (write_internal 7 [1, 2, 3] true []).2.1).length
          = (if ([1, 2, 3] : List Nat).length = 0 then 1
             else (([1, 2, 3] : List Nat).length + 254) / 255)
      ∧ (∀ p ∈ progSteps (write_internal 7 [1, 2, 3] true []).2.1, p.1 ≤ 255)
      ∧ (progSteps (write_internal 7 [1, 2, 3] true []).2.1).map Prod.snd
          = List.replicate
              ((progSteps (write_internal 7 [1, 2, 3] true []).2.1).length - 1) true
              ++ [false]
      ∧ bytesOf (write_internal 7 [1, 2, 3] true []).2.1 = [1, 2, 3])
    ∧ ((read_internal 7 2 false [4, 5] []).res = .ok ()
      ∧ (progSteps (read_internal 7 2 false [4, 5] []).evs).length
          = (if 2 = 0 then 1 else (2 + 254) / 255)
      ∧ (∀ p ∈ progSteps (read_internal 7 2 false [4, 5] []).evs, p.1 ≤ 255)
      ∧ (progSteps (read_internal 7 2 false [4, 5] []).evs).map Prod.snd
          = List.replicate
              ((progSteps (read_internal 7 2 false [4, 5] []).evs).length - 1) true
              ++ [false]
      ∧ bytesOf (read_internal 7 2 false [4, 5] []).evs
          = (read_internal 7 2 false [4, 5] []).buf
      ∧ (read_internal 7 2 false [4, 5] []).buf.length = 2)) :=
  ⟨by decide, by decide, c1_master_chunking 7 [1, 2, 3] true (by decide) 2 false [4, 5] (by decide)⟩

/-! ### Vectored-write happy path -/

/-- Happy-path trace of `blocking_write_vectored`'s inner chunk loop. -/
def vchunkTrace : List (List Nat) → Nat → Nat → Nat → Nat → List Ev
  | [], _, _, _, _ => []
  | c :: rest, num, lastChunkIdx, idx, lastSliceIdx =>
    (if num = 0 then []
     else [.cont c.length ((num != lastChunkIdx) || (idx != lastSliceIdx))])
      ++ c.map (fun b => Ev.byte (b % 256))
      ++ vchunkTrace rest (num + 1) lastChunkIdx idx lastSliceIdx

theorem vecChunks_happy (cs : List (List Nat)) (num lastChunkIdx idx lastSliceIdx : Nat)
    (h : ∀ c ∈ cs, 0 < c.length ∧ c.length ≤ 255) :
    vecChunks cs num lastChunkIdx idx lastSliceIdx [] =
      ([], vchunkTrace cs num lastChunkIdx idx lastSliceIdx, .ok ()) := by
  induction cs generalizing num with
  | nil => rfl
  | cons c rest ih =>
    have hc := h c (List.mem_cons_self _ _)
    have hrest := fun x hx => h x (List.mem_cons_of_mem _ hx)
    rw [vecChunks, vchunkTrace]
    by_cases hnum : num = 0
    · subst hnum
      simp only [if_pos rfl, reduceIte]
      rw [writeBytes_happy]
      simp only []
      rw [ih 1 hrest]
    · rw [if_neg hnum, if_neg hnum, master_continue_happy hc.1 hc.2]
      simp only []
      rw [writeBytes_happy]
      simp only []
      rw [ih (num + 1) hrest]

/-- Happy-path trace of `blocking_write_vectored`'s slice loop. -/
def sliceTrace : List (List Nat) → Nat → Nat → List Ev
  | [], _, _ => []
  | s :: rest, idx, lastSliceIdx =>
    (if idx = 0 then []
     else [.cont (min s.length 255) ((idx != lastSliceIdx) || (decide (255 < s.length)))])
      ++ vchunkTrace (chunksOf s) 0 (totalChunks s.length - 1) idx lastSliceIdx
      ++ sliceTrace rest (idx + 1) lastSliceIdx

theorem vecSlices_happy (slices : List (List Nat)) (idx lastSliceIdx : Nat)
    (h : ∀ s ∈ slices, s ≠ []) :
    vecSlices slices idx lastSliceIdx [] =
      ([], sliceTrace slices idx lastSliceIdx, .ok ()) := by
  induction slices generalizing idx with
  | nil => rfl
  | cons s rest ih =>
    have hs : s ≠ [] := h s (List.mem_cons_self _ _)
    have hrest := fun x hx => h x (List.mem_cons_of_mem _ hx)
    have hlen : 0 < s.length := List.length_pos.2 hs
    rw [vecSlices, sliceTrace]
    by_cases hidx : idx = 0
    · subst hidx
      simp only [if_pos rfl, reduceIte]
      rw [vecChunks_happy _ _ _ _ _ (fun c hc => chunksOf_mem hc)]
      simp only []
      rw [ih 1 hrest]
    · rw [if_neg hidx, if_neg hidx,
        master_continue_happy (by omega) (by omega)]
      simp only []
      rw [vecChunks_happy _ _ _ _ _ (fun c hc => chunksOf_mem hc)]
      simp only []
      rw [ih (idx + 1) hrest]

theorem blocking_write_vectored_happy (addr : Nat) (v : List (List Nat))
    (hne : v ≠ []) (h : ∀ s ∈ v, s ≠ []) :
    blocking_write_vectored addr v [] =
      ([], .start addr true (min (v.headI).length 255)
             ((decide (255 < (v.headI).length)) || ((v.length - 1) != 0)) false
           :: (sliceTrace v 0 (v.length - 1) ++ [.stop]), .ok ()) := by
  rw [blocking_write_vectored, if_neg hne]
  simp only []
  rw [master_write_happy _ _ _ _ (by omega)]
  simp only []
  rw [vecSlices_happy _ _ _ h]
  simp only [tryWait_nil]
  simp [List.append_assoc]

/-! ### Vectored-write observables -/

theorem bytesOf_vchunkTrace (cs : List (List Nat)) (num lc idx ls : Nat) :
    bytesOf (vchunkTrace cs num lc idx ls) = cs.flatten.map (fun b => b % 256) := by
  induction cs generalizing num with
  | nil => rfl
  | cons c rest ih =>
    rw [vchunkTrace]
    rw [bytesOf_append, bytesOf_append, bytesOf_map_byte, ih (num + 1)]
    by_cases hnum : num = 0
    · simp [hnum, bytesOf]
    · simp [hnum, bytesOf]

theorem bytesOf_sliceTrace (v : List (List Nat)) (idx ls : Nat) :
    bytesOf (sliceTrace v idx ls) = v.flatten.map (fun b => b % 256) := by
  induction v generalizing idx with
  | nil => rfl
  | cons s rest ih =>
    rw [sliceTrace]
    rw [bytesOf_append, bytesOf_append, bytesOf_vchunkTrace, chunksOf_flatten, ih (idx + 1)]
    by_cases hidx : idx = 0
    · simp [hidx, bytesOf]
    · simp [hidx, bytesOf]

/-- Every event of the vectored inner chunk loop is a continue step or
a data byte. -/
theorem vchunkTrace_mem (cs : List (List Nat)) :
    ∀ (num lc idx2 ls2 : Nat) (e : Ev), e ∈ vchunkTrace cs num lc idx2 ls2 →
      (∃ n r, e = .cont n r) ∨ (∃ b, e = .byte b) := by
  induction cs with
  | nil =>
    intro num lc idx2 ls2 e h
    simp [vchunkTrace] at h
  | cons c rest ih =>
    intro num lc idx2 ls2 e h
    rw [vchunkTrace] at h
    rcases List.mem_append.1 h with h | h
    · rcases List.mem_append.1 h with h | h
      · by_cases hnum : num = 0
        · simp [hnum] at h
        · rw [if_neg hnum] at h
          simp at h
          exact Or.inl ⟨_, _, h⟩
      · rcases List.mem_map.1 h with ⟨b, _, hb⟩
        exact Or.inr ⟨_, hb.symm⟩
    · exact ih _ _ _ _ _ h

/-- Every event of the slice-loop trace is a continue step or a data
byte: no START and no STOP inside the loop. -/
theorem sliceTrace_mem (v : List (List Nat)) :
    ∀ (idx ls : Nat) (e : Ev), e ∈ sliceTrace v idx ls →
      (∃ n r, e = .cont n r) ∨ (∃ b, e = .byte b) := by
  induction v with
  | nil =>
    intro idx ls e he
    simp [sliceTrace] at he
  | cons s rest ih =>
    intro idx ls e he
    rw [sliceTrace] at he
    rcases List.mem_append.1 he with h | h
    · rcases List.mem_append.1 h with h | h
      · by_cases hidx : idx = 0
        · simp [hidx] at h
        · rw [if_neg hidx] at h
          simp at h
          exact Or.inl ⟨_, _, h⟩
      · exact vchunkTrace_mem _ _ _ _ _ _ h
    · exact ih _ _ _ h

theorem countStarts_sliceTrace (v : List (List Nat)) (idx ls : Nat) :
    countStarts (sliceTrace v idx ls) = 0 := by
  rw [countStarts, List.countP_eq_zero]
  intro e he
  rcases sliceTrace_mem v idx ls e he with ⟨n, r, rfl⟩ | ⟨b, rfl⟩ <;> simp

theorem countStops_sliceTrace (v : List (List Nat)) (idx ls : Nat) :
    countStops (sliceTrace v idx ls) = 0 := by
  rw [countStops, List.countP_eq_zero]
  intro e he
  rcases sliceTrace_mem v idx ls e he with ⟨n, r, rfl⟩ | ⟨b, rfl⟩ <;> simp

/-- Programming steps of the vectored inner chunk loop, on chunk
sizes. -/
def vstepsC : List Nat → Nat → Nat → Nat → Nat → List (Nat × Bool)
  | [], _, _, _, _ => []
  | k :: rest, num, lastChunkIdx, idx, lastSliceIdx =>
    (if num = 0 then [] else [(k, (num != lastChunkIdx) || (idx != lastSliceIdx))])
      ++ vstepsC rest (num + 1) lastChunkIdx idx lastSliceIdx

/-- Programming steps of the vectored slice loop. -/
def vstepsS : List (List Nat) → Nat → Nat → List (Nat × Bool)
  | [], _, _ => []
  | s :: rest, idx, lastSliceIdx =>
    (if idx = 0 then []
     else [(min s.length 255, (idx != lastSliceIdx) || (decide (255 < s.length)))])
      ++ vstepsC (chunkSizes s.length) 0 (totalChunks s.length - 1) idx lastSliceIdx
      ++ vstepsS rest (idx + 1) lastSliceIdx

theorem progSteps_vchunkTrace (cs : List (List Nat)) (num lc idx ls : Nat) :
    progSteps (vchunkTrace cs num lc idx ls) = vstepsC (cs.map List.length) num lc idx ls := by
  induction cs generalizing num with
  | nil => rfl
  | cons c rest ih =>
    rw [vchunkTrace]
    simp only [List.map_cons]
    rw [vstepsC]
    rw [progSteps_append, progSteps_append, progSteps_map_byte, ih (num + 1)]
    by_cases hnum : num = 0
    · simp [hnum, progSteps]
    · simp [hnum, progSteps]

theorem progSteps_sliceTrace (v : List (List Nat)) (idx ls : Nat) :
    progSteps (sliceTrace v idx ls) = vstepsS v idx ls := by
  induction v generalizing idx with
  | nil => rfl
  | cons s rest ih =>
    rw [sliceTrace, vstepsS]
    rw [progSteps_append, progSteps_append, progSteps_vchunkTrace, chunksOf_map_length,
      ih (idx + 1)]
    by_cases hidx : idx = 0
    · simp [hidx, progSteps]
    · simp [hidx, progSteps]

theorem vstepsC_lastSlice (ks : List Nat) (num lc idx : Nat) :
    vstepsC ks num lc idx idx = stepsAuxN ks num lc := by
  induction ks generalizing num with
  | nil => rfl
  | cons k rest ih =>
    rw [vstepsC, stepsAuxN, ih (num + 1)]
    simp

theorem vstepsC_true (ks : List Nat) :
    ∀ (num lc idx ls : Nat), idx ≠ ls →
      ∀ p ∈ vstepsC ks num lc idx ls, p.2 = true := by
  induction ks with
  | nil =>
    intro num lc idx ls hne p hp
    simp [vstepsC] at hp
  | cons k rest ih =>
    intro num lc idx ls hne p hp
    rw [vstepsC] at hp
    rcases List.mem_append.1 hp with h | h
    · by_cases hnum : num = 0
      · simp [hnum] at h
      · rw [if_neg hnum] at h
        simp at h
        simp [h, hne]
    · exact ih _ _ _ _ hne p h

theorem allTrue_append_pattern {xs ys : List Bool}
    (hx : ∀ b ∈ xs, b = true)
    (hy : ys = List.replicate (ys.length - 1) true ++ [false]) :
    xs ++ ys = List.replicate ((xs ++ ys).length - 1) true ++ [false] := by
  have hylen : 1 ≤ ys.length := by
    cases ys with
    | nil => simp at hy
    | cons a l => simp
  have hxs : xs = List.replicate xs.length true :=
    List.eq_replicate_length.2 hx
  calc xs ++ ys
      = List.replicate xs.length true ++ (List.replicate (ys.length - 1) true ++ [false]) := by
        rw [← hxs, ← hy]
    _ = (List.replicate xs.length true ++ List.replicate (ys.length - 1) true) ++ [false] := by
        rw [List.append_assoc]
    _ = List.replicate (xs.length + (ys.length - 1)) true ++ [false] := by
        rw [← List.replicate_add]
    _ = List.replicate ((xs ++ ys).length - 1) true ++ [false] := by
        have hlen : xs.length + (ys.length - 1) = (xs ++ ys).length - 1 := by
          simp only [List.length_append]
          omega
        rw [hlen]

theorem stepsAuxN_zero_length {n : Nat} (h0 : n ≠ 0) (lc : Nat) :
    (stepsAuxN (chunkSizes n) 0 lc).length = (chunkSizes n).length - 1 := by
  rw [chunkSizes_eq n h0, stepsAuxN_zero]
  rw [stepsAuxN_length _ 1 lc (by omega)]
  simp

theorem chunkSizes_length_pos {n : Nat} (h0 : n ≠ 0) :
    1 ≤ (chunkSizes n).length := by
  rw [chunkSizes_eq n h0]
  simp

theorem totalChunks_last_ne (n : Nat) :
    ((totalChunks n - 1) != 0) = decide (255 < n) := by
  rw [totalChunks_eq]
  by_cases h : 255 < n
  · have hx : (n + 254) / 255 - 1 ≠ 0 := by omega
    simp [h, hx]
  · have hx : (n + 254) / 255 - 1 = 0 := by omega
    simp [h, hx]

/-- Reload flags of the slice loop from slice index `idx ≥ 1` through
the final slice: all `true` except the very last step, which is
`false`. -/
theorem vstepsS_snd (v : List (List Nat)) (idx ls : Nat)
    (hv : v ≠ []) (h : ∀ s ∈ v, s ≠ []) (h1 : 1 ≤ idx)
    (h2 : idx + v.length = ls + 1) :
    (vstepsS v idx ls).map Prod.snd =
      List.replicate ((vstepsS v idx ls).length - 1) true ++ [false] := by
  induction v generalizing idx with
  | nil => exact absurd rfl hv
  | cons s rest ih =>
    have hs : s ≠ [] := h s (List.mem_cons_self _ _)
    have hn : s.length ≠ 0 := by
      have := List.length_pos.2 hs
      omega
    rw [vstepsS]
    cases rest with
    | nil =>
      have hil : idx = ls := by
        simp only [List.length_cons, List.length_nil] at h2
        omega
      subst hil
      rw [if_neg (by omega), vstepsC_lastSlice]
      have hhead : ((idx != idx) || decide (255 < s.length))
          = ((totalChunks s.length - 1) != 0) := by
        rw [totalChunks_last_ne]
        simp
      rw [hhead]
      rw [show vstepsS [] (idx + 1) idx = [] from rfl]
      have hm := master_steps_snd s.length (totalChunks s.length - 1) rfl
      simp only [List.append_nil, List.cons_append, List.nil_append] at hm ⊢
      rw [hm]
      congr 2
      simp only [List.length_cons]
      rw [stepsAuxN_zero_length hn]
      have := chunkSizes_length_pos hn
      omega
    | cons s2 rest2 =>
      have hlt : idx ≠ ls := by
        simp only [List.length_cons] at h2
        omega
      rw [if_neg (by omega)]
      have hbd : ((idx != ls) || decide (255 < s.length)) = true := by
        simp [hlt]
      rw [hbd]
      have hys := ih (idx + 1) (by simp)
        (fun x hx => h x (List.mem_cons_of_mem _ hx)) (by omega)
        (by simp only [List.length_cons] at h2 ⊢; omega)
      have hys2 : (vstepsS (s2 :: rest2) (idx + 1) ls).map Prod.snd
          = List.replicate
              (((vstepsS (s2 :: rest2) (idx + 1) ls).map Prod.snd).length - 1) true
              ++ [false] := by
        rw [List.length_map]
        exact hys
      have hxs : ∀ b ∈ ((min s.length 255, true)
            :: vstepsC (chunkSizes s.length) 0 (totalChunks s.length - 1) idx ls).map
              Prod.snd,
          b = true := by
        intro b hb
        rcases List.mem_map.1 hb with ⟨p, hp, rfl⟩
        rcases List.mem_cons.1 hp with hh | hh
        · subst hh
          rfl
        · exact vstepsC_true _ _ _ _ _ hlt p hh
      have hpat := allTrue_append_pattern hxs hys2
      rw [← List.map_append] at hpat
      simp only [List.cons_append, List.nil_append] at hpat ⊢
      rw [hpat]
      congr 2
      simp only [List.length_map, List.length_cons, List.length_append]

theorem bwv_steps (addr : Nat) (v : List (List Nat)) (hne : v ≠ [])
    (h : ∀ s ∈ v, s ≠ []) :
    progSteps (blocking_write_vectored addr v []).2.1 =
      (min (v.headI).length 255,
        (decide (255 < (v.headI).length)) || ((v.length - 1) != 0))
        :: vstepsS v 0 (v.length - 1) := by
  rw [blocking_write_vectored_happy addr v hne h]
  simp only [progSteps, progSteps_append, progSteps_sliceTrace, List.append_nil]

/-- The reload pattern of a single full transfer whose head step carries
reload `255 < n`. -/
theorem master_shape_snd (n : Nat) (hn : n ≠ 0) :
    (((min n 255, decide (255 < n))
        :: stepsAuxN (chunkSizes n) 0 (totalChunks n - 1)).map Prod.snd)
      = List.replicate
          (((min n 255, decide (255 < n))
              :: stepsAuxN (chunkSizes n) 0 (totalChunks n - 1)).length - 1) true
          ++ [false] := by
  have hm := master_steps_snd n (totalChunks n - 1) rfl
  rw [totalChunks_last_ne] at hm
  rw [hm]
  congr 2
  simp only [List.length_cons]
  rw [stepsAuxN_zero_length hn]
  have := chunkSizes_length_pos hn
  omega

theorem bwv_snd (addr : Nat) (v : List (List Nat)) (hne : v ≠ [])
    (h : ∀ s ∈ v, s ≠ []) :
    (progSteps (blocking_write_vectored addr v []).2.1).map Prod.snd =
      List.replicate
        ((progSteps (blocking_write_vectored addr v []).2.1).length - 1) true
        ++ [false] := by
  rw [bwv_steps addr v hne h]
  cases v with
  | nil => exact absurd rfl hne
  | cons s0 rest =>
    have hs0 : s0 ≠ [] := h s0 (List.mem_cons_self _ _)
    have hn0 : s0.length ≠ 0 := by
      have := List.length_pos.2 hs0
      omega
    rw [vstepsS]
    simp only [reduceIte, List.nil_append, List.headI_cons]
    cases rest with
    | nil =>
      simp only [List.length_cons, List.length_nil, Nat.zero_add, Nat.add_sub_cancel]
      rw [vstepsC_lastSlice]
      rw [show vstepsS [] 1 0 = [] from rfl]
      simp only [List.append_nil]
      have hhead : (decide (255 < s0.length) || ((0 : Nat) != 0))
          = decide (255 < s0.length) := by
        simp
      rw [hhead]
      exact master_shape_snd s0.length hn0
    | cons s1 rest2 =>
      simp only [List.length_cons, Nat.add_sub_cancel]
      have hls : (0 : Nat) ≠ rest2.length + 1 := by omega
      have hhead : (decide (255 < s0.length) || ((rest2.length + 1 : Nat) != 0))
          = true := by
        simp
      rw [hhead]
      have hys := vstepsS_snd (s1 :: rest2) 1 (rest2.length + 1) (by simp)
        (fun x hx => h x (List.mem_cons_of_mem _ hx)) (by omega)
        (by simp only [List.length_cons]; omega)
      have hys2 : (vstepsS (s1 :: rest2) 1 (rest2.length + 1)).map Prod.snd
          = List.replicate
              (((vstepsS (s1 :: rest2) 1 (rest2.length + 1)).map Prod.snd).length - 1) true
              ++ [false] := by
        rw [List.length_map]
        exact hys
      have hxs : ∀ b ∈ ((min s0.length 255, true)
            :: vstepsC (chunkSizes s0.length) 0 (totalChunks s0.length - 1) 0
                (rest2.length + 1)).map Prod.snd,
          b = true := by
        intro b hb
        rcases List.mem_map.1 hb with ⟨p, hp, rfl⟩
        rcases List.mem_cons.1 hp with hh | hh
        · subst hh
          rfl
        · exact vstepsC_true _ _ _ _ _ hls p hh
      have hpat := allTrue_append_pattern hxs hys2
      rw [← List.map_append] at hpat
      simp only [List.cons_append, List.nil_append] at hpat ⊢
      rw [hpat]
      congr 2
      simp only [List.length_map, List.length_cons, List.length_append, Nat.zero_add]
      omega

theorem bwv_countStarts (addr : Nat) (v : List (List Nat)) (hne : v ≠ [])
    (h : ∀ s ∈ v, s ≠ []) :
    countStarts (blocking_write_vectored addr v []).2.1 = 1 := by
  rw [blocking_write_vectored_happy addr v hne h]
  simp only []
  rw [countStarts]
  simp only [List.countP_cons, List.countP_append]
  have h1 := countStarts_sliceTrace v 0 (v.length - 1)
  rw [countStarts] at h1
  rw [h1]
  simp

theorem bwv_countStops (addr : Nat) (v : List (List Nat)) (hne : v ≠ [])
    (h : ∀ s ∈ v, s ≠ []) :
    countStops (blocking_write_vectored addr v []).2.1 = 1 := by
  rw [blocking_write_vectored_happy addr v hne h]
  simp only []
  rw [countStops]
  simp only [List.countP_cons, List.countP_append]
  have h1 := countStops_sliceTrace v 0 (v.length - 1)
  rw [countStops] at h1
  rw [h1]
  simp

theorem bwv_last (addr : Nat) (v : List (List Nat)) (hne : v ≠ [])
    (h : ∀ s ∈ v, s ≠ []) :
    (blocking_write_vectored addr v []).2.1.getLast? = some .stop := by
  rw [blocking_write_vectored_happy addr v hne h]
  simp only []
  rw [show (Ev.start addr true (min (v.headI).length 255)
        ((decide (255 < (v.headI).length)) || ((v.length - 1) != 0)) false
      :: (sliceTrace v 0 (v.length - 1) ++ [Ev.stop]))
      = ((Ev.start addr true (min (v.headI).length 255)
            ((decide (255 < (v.headI).length)) || ((v.length - 1) != 0)) false
          :: sliceTrace v 0 (v.length - 1)) ++ [Ev.stop]) from by simp]
  exact List.getLast?_concat _

theorem bwv_bytes (addr : Nat) (v : List (List Nat)) (hne : v ≠ [])
    (h : ∀ s ∈ v, s ≠ []) :
    bytesOf (blocking_write_vectored addr v []).2.1
      = v.flatten.map (fun b => b % 256) := by
  rw [blocking_write_vectored_happy addr v hne h]
  simp only []
  simp only [bytesOf, bytesOf_append, bytesOf_sliceTrace]
  simp [bytesOf]

/-- **C2 counterexample.** `blocking_write_vectored 7 [[1],[2]]` programs
the steps `[(1,reload),(1,no-reload)]` while the single write of the
concatenation `[1,2]` programs `[(2,no-reload)]` — not the same sequence
of hardware programming steps; and on `[[5],[]]` (an empty buffer in
the list) the vectored write panics (`assert!(length > 0)` in
`master_continue`) where the single write of the concatenation
succeeds. -/
theorem c2_vectored_counterexample :
    progSteps (blocking_write_vectored 7 [[1], [2]] []).2.1
      ≠ progSteps (write_internal 7 ([[1], [2]] : List (List Nat)).flatten true []).2.1
    ∧ (blocking_write_vectored 7 [[5], []] []).2.2 = .panicked
    ∧ (write_internal 7 ([[5], []] : List (List Nat)).flatten true []).2.2 = .ok () := by
  decide

/-- **C2 (amended).** For every non-empty list of non-empty buffers
(all bytes in `u8` range), `blocking_write_vectored` is wire-equivalent
to a single write of the concatenation: it succeeds, issues exactly one
address phase (`master_write`) and exactly one stop condition (as the
final event), transmits exactly the concatenation of the buffers in
order (the same data bytes as the single write), and asserts reload on
every programming step except the last — chunk and buffer boundaries
included.  The individual step byte counts may differ from the single
write's, because the vectored path also breaks chunks at buffer
boundaries. -/
theorem c2_vectored_equiv (addr : Nat) (v : List (List Nat))
    (hne : v ≠ []) (hs : ∀ s ∈ v, s ≠ [])
    (hb : ∀ b ∈ v.flatten, b < 256) :
    (blocking_write_vectored addr v []).2.2 = .ok ()
    ∧ countStarts (blocking_write_vectored addr v []).2.1 = 1
    ∧ countStops (blocking_write_vectored addr v []).2.1 = 1
    ∧ (blocking_write_vectored addr v []).2.1.getLast? = some .stop
    ∧ bytesOf (blocking_write_vectored addr v []).2.1 = v.flatten
    ∧ bytesOf (blocking_write_vectored addr v []).2.1
        = bytesOf (write_internal addr v.flatten true []).2.1
    ∧ (progSteps (blocking_write_vectored addr v []).2.1).map Prod.snd
        = List.replicate
            ((progSteps (blocking_write_vectored addr v []).2.1).length - 1) true
            ++ [false] := by
  refine ⟨?_, bwv_countStarts addr v hne hs, bwv_countStops addr v hne hs,
    bwv_last addr v hne hs, ?_, ?_, bwv_snd addr v hne hs⟩
  · rw [blocking_write_vectored_happy addr v hne hs]
  · rw [bwv_bytes addr v hne hs, map_mod_of_lt hb]
  · rw [bwv_bytes addr v hne hs, write_internal_bytes]

/-- Witness for the amended C2 at `[[1],[2],[3]]`. -/
theorem c2_vectored_equiv_witness :
    (([[1], [2], [3]] : List (List Nat)) ≠ [])
    ∧ (∀ s ∈ ([[1], [2], [3]] : List (List Nat)), s ≠ [])
    ∧ (∀ b ∈ ([[1], [2], [3]] : List (List Nat)).flatten, b < 256)
    ∧ ((blocking_write_vectored 9 [[1], [2], [3]] []).2.2 = .ok ()
    ∧ countStarts (blocking_write_vectored 9 [[1], [2], [3]] []).2.1 = 1
    ∧ countStops (blocking_write_vectored 9 [[1], [2], [3]] []).2.1 = 1
    ∧ (blocking_write_vectored 9 [[1], [2], [3]] []).2.1.getLast? = some .stop
    ∧ bytesOf (blocking_write_vectored 9 [[1], [2], [3]] []).2.1
        = ([[1], [2], [3]] : List (List Nat)).flatten
    ∧ bytesOf (blocking_write_vectored 9 [[1], [2], [3]] []).2.1
        = bytesOf (write_internal 9 ([[1], [2], [3]] : List (List Nat)).flatten true []).2.1
    ∧ (progSteps (blocking_write_vectored 9 [[1], [2], [3]] []).2.1).map Prod.snd
        = List.replicate
            ((progSteps (blocking_write_vectored 9 [[1], [2], [3]] []).2.1).length - 1) true
            ++ [false]) :=
  ⟨by decide, by decide, by decide,
    c2_vectored_equiv 9 [[1], [2], [3]] (by decide) (by decide) (by decide)⟩

/-- **C4 evaluation at the failing input.** A 256-byte master write with
a stop requested (`send_stop = true`): the start and the first 255-byte
chunk succeed, then the reload/continue step for the second chunk times
out waiting for TCR.  `write_internal` propagates that error with `?`
(v2.rs line 287) and returns `Err(Timeout)` WITHOUT commanding a stop
condition, although the start had been issued — contradicting the
spec's "always issues a stop condition before returning the error". -/
theorem c4_continue_error_no_stop :
    (write_internal 7 (List.replicate 256 0) true
        (List.replicate 256 none ++ [some .timeout])).2.2 = .err .timeout
    ∧ ((write_internal 7 (List.replicate 256 0) true
        (List.replicate 256 none ++ [some .timeout])).2.1.contains .stop) = false
    ∧ ((write_internal 7 (List.replicate 256 0) true
        (List.replicate 256 none ++ [some .timeout])).2.1.contains
          (.start 7 true 255 true false)) = true := by
  decide

/-! ### Timings (`Timings::new`, v2.rs line 705) -/

/-- The timing-register coefficients. -/
structure Timings where
  prescale : Nat
  scll : Nat
  sclh : Nat
  sdadel : Nat
  scldel : Nat
deriving DecidableEq, Repr

/-- The `assert!`s of `Timings::new`, in source order. -/
inductive TimingsPanic where
  | ratioTooSmall
  | clkTooSlowFmPlus
  | clkTooSlowFm
  | clkTooSlowSm
  | sclhTooBig
  | prescTooBig
deriving DecidableEq, Repr

/-- The common tail of `Timings::new`: the `as u8` casts of the branch
results, the sanity `assert!(presc_reg < 16)`, and the clamps
`sdadel ≥ 2`, `scldel ≥ 4`. -/
def timingsFinish (presc_reg scll sclh sdadel scldel : Nat) :
    Except TimingsPanic Timings :=
  if 16 ≤ presc_reg then .error .prescTooBig
  else .ok ⟨presc_reg, scll % 256, sclh % 256,
    max (sdadel % 256) 2, max (scldel % 256) 4⟩

/-- `Timings::new` (v2.rs line 705).  Division is Rust `u32` integer
division; `% 256` marks the `as u8` casts.  (Nat subtraction is
truncating where Rust `u32` subtraction could underflow; all claims
evaluate the function away from underflow.) -/
def Timings.new (i2cclk freq : Nat) : Except TimingsPanic Timings :=
  let ratio2 := i2cclk / freq
  if ratio2 < 4 then .error .ratioTooSmall
  else if 100000 < freq then
    -- Fast-mode (Fm) or Fast-mode Plus (Fm+): SCLL + 1 = 2 * (SCLH + 1)
    let presc_reg := ((ratio2 - 1) / 384) % 256
    let presc := presc_reg + 1
    let sclh := ((ratio2 / presc) - 3) / 3
    let scll := 2 * (sclh + 1) - 1
    if 400000 < freq then
      if i2cclk < 17000000 then .error .clkTooSlowFmPlus
      else
        let sdadel := i2cclk / 8000000 / presc
        let scldel := i2cclk / 4000000 / presc - 1
        timingsFinish presc_reg scll sclh sdadel scldel
    else
      if i2cclk < 8000000 then .error .clkTooSlowFm
      else
        let sdadel := i2cclk / 4000000 / presc
        let scldel := i2cclk / 2000000 / presc - 1
        timingsFinish presc_reg scll sclh sdadel scldel
  else
    -- Standard-mode (Sm): SCLL = SCLH
    if i2cclk < 2000000 then .error .clkTooSlowSm
    else
      let presc0 := (ratio2 - 1) / 512
      let presc_reg := min presc0 15
      let presc := presc_reg + 1
      let sclh := ((ratio2 / presc) - 2) / 2
      let scll := sclh
      if 256 ≤ sclh then .error .sclhTooBig
      else
        let sdadel := i2cclk / 2000000 / presc
        let scldel := i2cclk / 500000 / presc - 1
        timingsFinish presc_reg scll sclh sdadel scldel

/-- **C8.** `Timings::new(48 MHz, 100 kHz)` yields a symmetric duty
cycle (`scll = sclh`) with prescaler < 16; `Timings::new(48 MHz,
400 kHz)` yields the 2:1 duty ratio `scll = 2*(sclh+1)-1`. -/
theorem c8_timings_values :
    (∃ t : Timings, Timings.new 48000000 100000 = .ok t
      ∧ t.scll = t.sclh ∧ t.prescale < 16)
    ∧ (∃ t : Timings, Timings.new 48000000 400000 = .ok t
      ∧ t.scll = 2 * (t.sclh + 1) - 1) :=
  ⟨⟨⟨0, 239, 239, 24, 95⟩, rfl, rfl, by decide⟩,
   ⟨⟨0, 79, 39, 12, 23⟩, rfl, rfl⟩⟩

theorem timingsFinish_ne_ratio (a b c d e : Nat) :
    timingsFinish a b c d e ≠ .error .ratioTooSmall := by
  unfold timingsFinish
  split_ifs <;> simp

/-- **C9.** For positive input frequencies, `Timings::new` rejects
every pair with `i2cclk / freq < 4` by its first assertion, before any
timing coefficient is computed; with ratio at least 4 that rejection
never fires. -/
theorem c9_timings_ratio_guard (i2cclk freq : Nat) (hc : 0 < i2cclk)
    (hf : 0 < freq) :
    (i2cclk / freq < 4 → Timings.new i2cclk freq = .error .ratioTooSmall)
    ∧ (4 ≤ i2cclk / freq → Timings.new i2cclk freq ≠ .error .ratioTooSmall) := by
  constructor
  · intro h
    rw [Timings.new]
    simp [h]
  · intro h
    rw [Timings.new]
    rw [if_neg (by omega)]
    by_cases h1 : 100000 < freq
    · rw [if_pos h1]
      by_cases h2 : 400000 < freq
      · rw [if_pos h2]
        by_cases h3 : i2cclk < 17000000
        · rw [if_pos h3]
          simp
        · rw [if_neg h3]
          exact timingsFinish_ne_ratio _ _ _ _ _
      · rw [if_neg h2]
        by_cases h3 : i2cclk < 8000000
        · rw [if_pos h3]
          simp
        · rw [if_neg h3]
          exact timingsFinish_ne_ratio _ _ _ _ _
    · rw [if_neg h1]
      by_cases h2 : i2cclk < 2000000
      · rw [if_pos h2]
        simp
      · rw [if_neg h2]
        by_cases h3 : 256 ≤ (i2cclk / freq / (min ((i2cclk / freq - 1) / 512) 15 + 1) - 2) / 2
        · rw [if_pos h3]
          simp
        · rw [if_neg h3]
          exact timingsFinish_ne_ratio _ _ _ _ _

/-- Witness for C9 at i2cclk = 3, freq = 1 (ratio 3 < 4). -/
theorem c9_timings_ratio_guard_witness :
    (0 < 3) ∧ (0 < 1)
    ∧ ((3 / 1 < 4 → Timings.new 3 1 = .error .ratioTooSmall)
      ∧ (4 ≤ 3 / 1 → Timings.new 3 1 ≠ .error .ratioTooSmall)) :=
  ⟨by decide, by decide, c9_timings_ratio_guard 3 1 (by decide) (by decide)⟩

/-! ### Master DMA paths and the async public API -/

/-- CR1 interrupt/DMA-request enable bits touched by the DMA paths. -/
structure Cr1 where
  txdmaen : Bool
  rxdmaen : Bool
  tcie : Bool
  stopie : Bool
  txie : Bool
  addrie : Bool
deriving DecidableEq, Repr

/-- The scope-exit cleanup (`OnDrop`) of master `write_dma_internal`
(v2.rs line 451): disable TCIE always; disable TXDMAEN only when
`last_slice`. -/
def write_dma_on_drop (lastSlice : Bool) (r : Cr1) : Cr1 :=
  { r with txdmaen := if lastSlice then false else r.txdmaen, tcie := false }

/-- The scope-exit cleanup (`OnDrop`) of master `read_dma_internal`
(v2.rs line 533): disable RXDMAEN and TCIE. -/
def read_dma_on_drop (r : Cr1) : Cr1 :=
  { r with rxdmaen := false, tcie := false }

/-- The reprogramming steps of the master DMA poll loop after the first
one: at each wake, `remaining = total - 255*(i+1)` bytes are left and
the loop issues `master_continue(min(remaining,255),
!(remaining ≤ 255 && last_slice))` until remaining reaches 0. -/
def dmaConts (total : Nat) (lastSlice : Bool) : List Ev :=
  (List.range (totalChunks total - 1)).map (fun i =>
    .cont (min (total - 255 * (i + 1)) 255)
      (!(decide (total - 255 * (i + 1) ≤ 255) && lastSlice)))

/-- Master `write_dma_internal` (v2.rs line 425), happy path: enable
TXDMAEN (and TCIE on the first slice), submit the DMA transfer, then
the poll loop: the first wake issues `master_write` (first slice) or
`master_continue` with reload `(total > 255) || !last_slice`, later
wakes reprogram per `dmaConts`; after the loop the DMA completion is
awaited, and on the last slice TC is awaited and a stop issued.
(Modelled for non-empty buffers, as the public API guarantees.) -/
def write_dma_internal (address : Nat) (w : List Nat)
    (firstSlice lastSlice : Bool) : List Ev × MRes Unit :=
  let total := w.length
  let first : Ev :=
    if firstSlice then
      .start address true (min total 255) ((decide (255 < total)) || !lastSlice) false
    else
      .cont (min total 255) ((decide (255 < total)) || !lastSlice)
  (.dmaStart :: first
     :: (dmaConts total lastSlice ++ (if lastSlice then [.stop] else [])),
   .ok ())

/-- Master `read_dma_internal` (v2.rs line 510), happy path: enable
RXDMAEN and TCIE, submit the DMA transfer, poll loop as for the write
(`Stop::Software`, reload `total > 255`), then await DMA completion,
wait TC and issue the stop. -/
def read_dma_internal (address : Nat) (n : Nat) (restart : Bool) :
    List Ev × MRes Unit :=
  (.dmaStart :: .start address false (min n 255) (decide (255 < n)) false
     :: (dmaConts n true ++ [.stop]),
   .ok ())

/-- Modelled from the spec: the `Timeout` deadline wrapper (the
`Timeout` type lives outside this repository's sources; spec §3/§5:
"every suspendable operation is wrapped with the same Timeout deadline
...; exceeding it resolves the operation with `Error::Timeout`").
`elapsed` says whether the deadline elapses before the wrapped future
completes. -/
def timeoutWith (elapsed : Bool) (r : MRes α) : MRes α :=
  if elapsed then .err .timeout else r

/-- Async master `write` (v2.rs line 588): an empty buffer falls
through to blocking `write_internal` (with stop); otherwise the DMA
path runs under the timeout wrapper. -/
def I2c.write (address : Nat) (w : List Nat) (elapsed : Bool) (env : Env) :
    List Ev × MRes Unit :=
  if w = [] then
    ((write_internal address w true env).2.1, (write_internal address w true env).2.2)
  else
    ((write_dma_internal address w true true).1,
     timeoutWith elapsed (write_dma_internal address w true true).2)

/-- Async master `read` (v2.rs line 625): an empty buffer falls through
to blocking `read_internal`; otherwise the DMA path runs under the
timeout wrapper. -/
def I2c.read (address : Nat) (n : Nat) (rx : List Nat) (elapsed : Bool) (env : Env) :
    List Ev × MRes Unit :=
  if n = 0 then
    ((read_internal address n false rx env).evs, (read_internal address n false rx env).res)
  else
    ((read_dma_internal address n false).1,
     timeoutWith elapsed (read_dma_internal address n false).2)

/-- The slice loop of async `write_vectored` (v2.rs line 602): each
slice's DMA future is wrapped in the timeout and awaited with `?`.
(The trace of a timed-out future is truncated and not recorded.) -/
def write_vectored_go (address : Nat) (slices : List (List Nat))
    (first : Bool) (elapsed : Bool) : List Ev × MRes Unit :=
  match slices with
  | [] => ([], .ok ())
  | c :: rest =>
    match timeoutWith elapsed (write_dma_internal address c first rest.isEmpty).2 with
    | .ok _ =>
      match write_vectored_go address rest false elapsed with
      | (evs, r) => ((write_dma_internal address c first rest.isEmpty).1 ++ evs, r)
    | .err e => ([], .err e)
    | .panicked => ([], .panicked)

/-- Async `write_vectored` (v2.rs line 602): an empty buffer list is
rejected with `ZeroLengthTransfer` before touching hardware. -/
def write_vectored (address : Nat) (v : List (List Nat)) (elapsed : Bool) :
    List Ev × MRes Unit :=
  if v = [] then ([], .err .zeroLengthTransfer)
  else write_vectored_go address v true elapsed

/-- Async `write_read` (v2.rs line 637): the write leg (blocking with
the bus held when empty, DMA under the timeout otherwise), then the
read leg (blocking restart when empty, DMA restart under the timeout
otherwise). -/
def write_read (address : Nat) (w : List Nat) (n : Nat) (rx : List Nat)
    (e1 e2 : Bool) (env : Env) : MRes Unit :=
  match (if w = [] then (write_internal address w false env).2.2
         else timeoutWith e1 (write_dma_internal address w true true).2) with
  | .ok _ =>
    (if n = 0 then (read_internal address n true rx env).res
     else timeoutWith e2 (read_dma_internal address n true).2)
  | .err e => .err e
  | .panicked => .panicked

/-! ### Slave engine -/

/-- Slave-side register/DMA actions, in program order. -/
inductive SEv where
  | enableRxDmaStop
  | enableTxDmaIrqs
  | setNbytes (n : Nat)
  | dmaSetup
  | clearAddr
  | clearStop
  | requestDmaStop
  | setNack (b : Bool)
deriving DecidableEq, Repr

/-- `ReceiveStatus` (driver data model). -/
inductive ReceiveStatus where
  | sendRequested (n : Nat)
  | done (n : Nat)
deriving DecidableEq, Repr

/-- `SendStatus` (driver data model). -/
inductive SendStatus where
  | done
  | leftoverBytes (n : Nat)
  | moreBytesRequested
deriving DecidableEq, Repr

/-- `CommandKind` (driver data model). -/
inductive CommandKind where
  | slaveReceive
  | slaveSend
deriving DecidableEq, Repr

/-- `OwnAddress` (driver data model). -/
inductive OwnAddress where
  | sevenBit (a : Nat)
  | tenBit (a : Nat)
deriving DecidableEq, Repr

/-- `Command` (driver data model). -/
structure Command where
  kind : CommandKind
  address : OwnAddress
deriving DecidableEq, Repr

/-- Bus direction of an address match. -/
inductive Dir where
  | dirRead
  | dirWrite
deriving DecidableEq, Repr

/-- `determine_matched_address` (v2.rs line 933): a match code whose
high bits are `0b11110` is a 10-bit header; the low byte is fetched
with a single-byte blocking read (`rxByte`) and combined as
`(code << 6) | low`; otherwise the 7-bit code is the address. -/
def determine_matched_address (addcode rxByte : Nat) : OwnAddress :=
  if addcode >>> 3 = 0b11110 then .tenBit ((addcode <<< 6) ||| rxByte)
  else .sevenBit addcode

/-- `listen` (v2.rs line 897), resolution on an address match: WRITE
direction clears the match flag (ICR.ADDRCF) before resolving
`Command{SlaveReceive, addr}`; READ direction does NOT clear the flag
(clock stretching continues) and resolves `Command{SlaveSend, addr}`. -/
def listen (d : Dir) (addcode rxByte : Nat) : List SEv × Command :=
  match d with
  | .dirWrite =>
    ([.clearAddr], ⟨.slaveReceive, determine_matched_address addcode rxByte⟩)
  | .dirRead =>
    ([], ⟨.slaveSend, determine_matched_address addcode rxByte⟩)

/-- Slave `read_dma_internal` (v2.rs line 1017), happy path: enable
RXDMAEN+STOPIE, set up the DMA receive, then clear the address-match
flag; suspend until STOPF; clear it, resolve with
`total - remaining-transfer-count` and request early DMA stop.
`remaining` is the DMA engine's remaining count at the stop. -/
def slave_read_dma_internal (bufLen remaining : Nat) : List SEv × MRes Nat :=
  ([.enableRxDmaStop, .dmaSetup, .clearAddr, .clearStop, .requestDmaStop],
   .ok (bufLen - remaining))

/-- The wake that resolves the slave transmit future: a stop condition
with `remaining` DMA transfers left, or DMA completion with no stop. -/
inductive SlaveWake where
  | stopf (remaining : Nat)
  | dmaComplete
deriving DecidableEq, Repr

/-- Slave `write_dma_internal` (v2.rs line 1071), `circular = false`,
happy path: program NBYTES with the buffer length (`as u8`), enable
TXDMAEN+TXIE+STOPIE, set up the DMA write, then clear the
address-match flag (required to start the clocked-out transfer) and
clear the NACK bit; suspend.  On STOPF: clear it; `r > 0` remaining →
request early DMA stop and resolve `LeftoverBytes r`, `r = 0` →
`Done`.  On DMA completion without a stop: set the NACK control bit
and resolve `MoreBytesRequested`. -/
def slave_write_dma_internal (bufLen : Nat) (wake : SlaveWake) :
    List SEv × MRes SendStatus :=
  let setup : List SEv :=
    [.setNbytes (bufLen % 256), .enableTxDmaIrqs, .dmaSetup, .clearAddr, .setNack false]
  match wake with
  | .stopf r =>
    if r = 0 then (setup ++ [.clearStop], .ok .done)
    else (setup ++ [.clearStop, .requestDmaStop], .ok (.leftoverBytes r))
  | .dmaComplete => (setup ++ [.setNack true], .ok .moreBytesRequested)

/-- `respond_to_send` (v2.rs line 997): the slave transmit future under
the timeout wrapper. -/
def respond_to_send (bufLen : Nat) (wake : SlaveWake) (elapsed : Bool) :
    MRes SendStatus :=
  timeoutWith elapsed (slave_write_dma_internal bufLen wake).2

/-- `respond_to_receive` (v2.rs line 960): the receive leg under the
timeout (its error propagates with `?`), then ADDRIE is re-enabled and
a possible master turnaround is awaited under a fresh timeout;
`dirRead` is the direction of the next address match if one arrives.
Any error of that second phase — including the timeout — is swallowed
into `Ok(Done(size))` (v2.rs line 993). -/
def respond_to_receive (bufLen remaining : Nat) (e1 : Bool) (dirRead : Bool)
    (e2 : Bool) : MRes ReceiveStatus :=
  match timeoutWith e1 (slave_read_dma_internal bufLen remaining).2 with
  | .err e => .err e
  | .panicked => .panicked
  | .ok size =>
    match timeoutWith e2
        (if dirRead then (.ok (.sendRequested size) : MRes ReceiveStatus)
         else .ok (.done size)) with
    | .ok (.sendRequested s) => .ok (.sendRequested s)
    | _ => .ok (.done size)

/-- **C3 counterexample.** `write_dma_internal` called mid-vector
(`last_slice = false`): its scope-exit cleanup leaves the
transmit-DMA-request enable (TXDMAEN) set — it does not disable the
DMA-request enable on that operation's exit paths. -/
theorem c3_cleanup_counterexample :
    (write_dma_on_drop false ⟨true, false, true, false, false, false⟩).txdmaen
      = true := by
  decide

/-- **C3 (amended).** The scope-exit cleanups (which `OnDrop` runs on
every exit path, normal, error or cancellation): `read_dma_internal`'s
always disables RXDMAEN and TCIE; `write_dma_internal`'s always
disables TCIE, and disables TXDMAEN exactly when the call is the last
slice — a mid-vector slice deliberately keeps transmit-DMA enabled for
the following slice. -/
theorem c3_cleanup_effect (r : Cr1) (lastSlice : Bool) :
    (read_dma_on_drop r).rxdmaen = false
    ∧ (read_dma_on_drop r).tcie = false
    ∧ (write_dma_on_drop lastSlice r).tcie = false
    ∧ (write_dma_on_drop true r).txdmaen = false
    ∧ (write_dma_on_drop false r).txdmaen = r.txdmaen := by
  refine ⟨rfl, rfl, rfl, rfl, rfl⟩

/-- **C6.** `listen` resolving in the incoming-write direction clears
the address-match flag before returning `Command{SlaveReceive, ..}`;
in the incoming-read direction it returns `Command{SlaveSend, ..}`
without touching the flag; and in both slave DMA responders the flag
clear is the action immediately after the DMA transfer has been set
up. -/
theorem c6_addr_flag_discipline (a rxb bufLen remaining : Nat)
    (wake : SlaveWake) :
    listen .dirWrite a rxb
      = ([.clearAddr], ⟨.slaveReceive, determine_matched_address a rxb⟩)
    ∧ listen .dirRead a rxb
      = ([], ⟨.slaveSend, determine_matched_address a rxb⟩)
    ∧ (slave_write_dma_internal bufLen wake).1.take 4
        = [.setNbytes (bufLen % 256), .enableTxDmaIrqs, .dmaSetup, .clearAddr]
    ∧ (slave_read_dma_internal bufLen remaining).1.take 3
        = [.enableRxDmaStop, .dmaSetup, .clearAddr] := by
  refine ⟨rfl, rfl, ?_, rfl⟩
  cases wake with
  | stopf r =>
    by_cases hr : r = 0
    · simp [slave_write_dma_internal, hr]
    · simp [slave_write_dma_internal, hr]
  | dmaComplete => rfl

/-- **C7.** `respond_to_send` resolves `Ok(Done)` when the stop flag is
observed with zero DMA transfers remaining; `Ok(LeftoverBytes n)` (with
an early-DMA-stop request) when the stop arrives with `n > 0`
remaining; and when the DMA engine completes before any stop, it sets
the NACK control bit and resolves `Ok(MoreBytesRequested)`. -/
theorem c7_respond_to_send_statuses (bufLen r : Nat) :
    (slave_write_dma_internal bufLen (.stopf 0)).2 = .ok .done
    ∧ (slave_write_dma_internal bufLen (.stopf (r + 1))).2
        = .ok (.leftoverBytes (r + 1))
    ∧ .requestDmaStop ∈ (slave_write_dma_internal bufLen (.stopf (r + 1))).1
    ∧ (slave_write_dma_internal bufLen .dmaComplete).2 = .ok .moreBytesRequested
    ∧ .setNack true ∈ (slave_write_dma_internal bufLen .dmaComplete).1
    ∧ respond_to_send bufLen (.stopf 0) false = .ok .done
    ∧ respond_to_send bufLen (.stopf (r + 1)) false = .ok (.leftoverBytes (r + 1))
    ∧ respond_to_send bufLen .dmaComplete false = .ok .moreBytesRequested := by
  refine ⟨rfl, ?_, ?_, rfl, ?_, rfl, ?_, rfl⟩
  · simp [slave_write_dma_internal]
  · simp [slave_write_dma_internal]
  · simp [slave_write_dma_internal]
  · simp [respond_to_send, slave_write_dma_internal, timeoutWith]

/-- **C5 counterexample.** The deadline elapses during
`respond_to_receive`'s turnaround wait (after the receive leg finished
with 3 bytes): the operation resolves `Ok(Done 3)`, not
`Err(Timeout)`. -/
theorem c5_timeout_counterexample :
    respond_to_receive 5 2 false false true = .ok (.done 3)
    ∧ respond_to_receive 5 2 false false true ≠ .err .timeout := by
  refine ⟨rfl, by decide⟩

/-- **C5 (amended).** Every timeout-wrapped suspendable region resolves
`Err(Timeout)` when its deadline elapses: the master write, read,
write_vectored and both legs of write_read, the slave respond_to_send,
and respond_to_receive's receive leg.  The one exception is
`respond_to_receive`'s turnaround wait after the receive has
completed: a deadline elapsing there resolves `Ok(Done n)` (the
timeout is how "no turnaround" is detected). -/
theorem c5_timeout_behavior (addr n bufLen remaining : Nat) (w : List Nat)
    (v : List (List Nat)) (rx : List Nat) (wake : SlaveWake) (dirRead : Bool)
    (hw : w ≠ []) (hn : n ≠ 0) (hv : v ≠ []) :
    (I2c.write addr w true []).2 = .err .timeout
    ∧ (I2c.read addr n rx true []).2 = .err .timeout
    ∧ (write_vectored addr v true).2 = .err .timeout
    ∧ write_read addr w n rx true true [] = .err .timeout
    ∧ write_read addr w n rx false true [] = .err .timeout
    ∧ respond_to_send bufLen wake true = .err .timeout
    ∧ respond_to_receive bufLen remaining true dirRead false = .err .timeout
    ∧ respond_to_receive bufLen remaining false dirRead true
        = .ok (.done (bufLen - remaining)) := by
  refine ⟨?_, ?_, ?_, ?_, ?_, rfl, rfl, ?_⟩
  · rw [I2c.write, if_neg hw]
    rfl
  · rw [I2c.read, if_neg hn]
    rfl
  · rw [write_vectored, if_neg hv]
    cases v with
    | nil => exact absurd rfl hv
    | cons c rest => rfl
  · rw [write_read, if_neg hw]
    rfl
  · rw [write_read, if_neg hw]
    simp only [timeoutWith, write_dma_internal]
    rw [if_neg hn]
    rfl
  · rw [respond_to_receive]
    cases dirRead <;> rfl

/-- Witness for the amended C5 at concrete inputs. -/
theorem c5_timeout_behavior_witness :
    (([1] : List Nat) ≠ []) ∧ ((1 : Nat) ≠ 0) ∧ (([[1]] : List (List Nat)) ≠ [])
    ∧ ((I2c.write 7 [1] true []).2 = .err .timeout
    ∧ (I2c.read 7 1 [9] true []).2 = .err .timeout
    ∧ (write_vectored 7 [[1]] true).2 = .err .timeout
    ∧ write_read 7 [1] 1 [9] true true [] = .err .timeout
    ∧ write_read 7 [1] 1 [9] false true [] = .err .timeout
    ∧ respond_to_send 4 (.stopf 0) true = .err .timeout
    ∧ respond_to_receive 4 2 true false false = .err .timeout
    ∧ respond_to_receive 4 2 false false true = .ok (.done (4 - 2))) :=
  ⟨by decide, by decide, by decide,
    c5_timeout_behavior 7 1 4 2 [1] [[1]] [9] (.stopf 0) false
      (by decide) (by decide) (by decide)⟩

/-- **C10.** The async master write and read called with an empty
buffer do not submit a DMA transfer: they fall through to the blocking
path, whose trace is a single zero-length addressed transfer (with
auto-stop for the read, an explicit stop for the write), returning
`Ok` absent hardware errors; in contrast, `write_vectored` with an
empty buffer list is rejected with `Err(ZeroLengthTransfer)`. -/
theorem c10_empty_buffer_fallthrough (addr : Nat) (elapsed : Bool)
    (rx : List Nat) :
    (I2c.write addr [] elapsed []).2 = .ok ()
    ∧ (I2c.write addr [] elapsed []).1 = [.start addr true 0 false false, .stop]
    ∧ .dmaStart ∉ (I2c.write addr [] elapsed []).1
    ∧ (I2c.read addr 0 rx elapsed []).2 = .ok ()
    ∧ (I2c.read addr 0 rx elapsed []).1 = [.start addr false 0 false true]
    ∧ .dmaStart ∉ (I2c.read addr 0 rx elapsed []).1
    ∧ (write_vectored addr [] elapsed).2 = .err .zeroLengthTransfer := by
  refine ⟨rfl, rfl, ?_, rfl, rfl, ?_, rfl⟩
  · simp [I2c.write, write_internal, master_write, busyWait, takeWait, writeChunks,
      tryWait]
  · simp [I2c.read, read_internal, master_read, busyWait, takeWait, readChunks]
